import Mathlib

/- Verification development for the ScaffoQA assembly-graph / QUBO pipeline.
   The Python sources are shallowly embedded: NetworkX MultiDiGraphs with
   signed links become lists of sign-tagged tuples, NetworkX DiGraphs become
   a pair of (ordered) node and edge lists, numpy matrices become total
   functions from index pairs to integers, and the unbounded Python loops
   become fuel-indexed recursions returning Option. -/

namespace ScaffoQA

/- ### utility.py: signs and the signed De Bruijn multigraph -/

inductive Sign : Type
  | plus : Sign
  | minus : Sign
deriving DecidableEq

/- utility.reverse_sign: '+' maps to '-' and conversely. -/
def reverse_sign : Sign → Sign
  | Sign.plus => Sign.minus
  | Sign.minus => Sign.plus

/- One stored multigraph edge of the De Bruijn graph: the attribute dictionary
   {sign_begin, sign_end} attached to a (source, target) pair. -/
abbrev SEdge (N : Type) := N × N × Sign × Sign

/- The mirror of a stored link (u, v, s1, s2): (v, u, reverse s2, reverse s1). -/
def mirrorEdge {N : Type} (e : SEdge N) : SEdge N :=
  (e.2.1, e.1, reverse_sign e.2.2.2, reverse_sign e.2.2.1)

/- utility.edge_with_sign_exists: an edge u -> v with the given sign
   attributes is stored (scan of G.get_edge_data(u, v)). -/
def edge_with_sign_exists {N : Type} [DecidableEq N] (g : List (SEdge N))
    (u v : N) (s1 s2 : Sign) : Bool :=
  g.any (fun e =>
    decide (e.1 = u) && decide (e.2.1 = v) &&
    decide (e.2.2.1 = s1) && decide (e.2.2.2 = s2))

/- utility.add_de_bruijn_edge: unless (v1, v2, s1, s2) is already stored, add
   the edge and its mirror in one operation.  The Sign type only contains the
   two valid signs, so the ValueError branch is unreachable here. -/
def add_de_bruijn_edge {N : Type} [DecidableEq N] (g : List (SEdge N))
    (v1 v2 : N) (s1 s2 : Sign) : List (SEdge N) :=
  if edge_with_sign_exists g v1 v2 s1 s2 then g
  else g ++ [(v1, v2, s1, s2), (v2, v1, reverse_sign s2, reverse_sign s1)]

/- A graph built from the empty multigraph by a sequence of
   add_de_bruijn_edge insertions (what generate_de_bruijn_graph_from_fa and
   add_de_bruijn_edges perform for each accepted link). -/
def build_de_bruijn {N : Type} [DecidableEq N] (ops : List (SEdge N)) :
    List (SEdge N) :=
  ops.foldl (fun g e => add_de_bruijn_edge g e.1 e.2.1 e.2.2.1 e.2.2.2) []

/- ### utility.py: reverse_complement -/

/- Whitespace characters removed by Python str.strip(). -/
def pyIsSpace (c : Char) : Bool :=
  c = ' ' || c = '\t' || c = '\n' || c = '\r' || c = '\x0b' || c = '\x0c'

/- Python str.strip(): drop leading and trailing whitespace. -/
def pyStrip (s : List Char) : List Char :=
  ((s.dropWhile pyIsSpace).reverse.dropWhile pyIsSpace).reverse

/- The complement dictionary of reverse_complement; None models a KeyError. -/
def complementMap : Char → Option Char
  | 'A' => some 'T'
  | 'T' => some 'A'
  | 'C' => some 'G'
  | 'G' => some 'C'
  | _ => none

/- The join over the generator (complement[nuc] for nuc in reversed(seq)):
   a KeyError anywhere aborts the whole call. -/
def joinComplement : List Char → Option (List Char)
  | [] => some []
  | c :: rest =>
    match complementMap c with
    | none => none
    | some d => (joinComplement rest).map (fun l => d :: l)

/- utility.reverse_complement: strip, uppercase, then join the complements of
   the reversed sequence; none models the raised ValueError. -/
def reverse_complement (s : List Char) : Option (List Char) :=
  joinComplement (((pyStrip s).map Char.toUpper).reverse)

/- Total base-complement function (spec side, for stating results). -/
def compBase : Char → Char
  | 'A' => 'T'
  | 'T' => 'A'
  | 'C' => 'G'
  | 'G' => 'C'
  | c => c

/- The valid upper-case alphabet {A, C, G, T}. -/
def validBase (c : Char) : Bool :=
  c = 'A' || c = 'C' || c = 'G' || c = 'T'

/- ### Directed graphs (NetworkX DiGraph) -/

/- A NetworkX DiGraph: nodes in insertion order, edges in insertion order,
   no parallel edges. -/
structure DiGraph (N : Type) where
  nodes : List N
  edges : List (N × N)

variable {N : Type} [DecidableEq N]

/- G.successors(u), in adjacency (edge-insertion) order. -/
def successors (G : DiGraph N) (u : N) : List N :=
  (G.edges.filter (fun e => decide (e.1 = u))).map (fun e => e.2)

/- G.predecessors(v), in edge-insertion order. -/
def predecessors (G : DiGraph N) (v : N) : List N :=
  (G.edges.filter (fun e => decide (e.2 = v))).map (fun e => e.1)

/- G.in_degree[v]. -/
def in_degree (G : DiGraph N) (v : N) : ℕ :=
  (G.edges.filter (fun e => decide (e.2 = v))).length

/- G.out_degree[u]. -/
def out_degree (G : DiGraph N) (u : N) : ℕ :=
  (G.edges.filter (fun e => decide (e.1 = u))).length

/- The graphs that are images of NetworkX DiGraphs: node and edge lists are
   duplicate free and every edge endpoint is a registered node. -/
def WF (G : DiGraph N) : Prop :=
  G.nodes.Nodup ∧ G.edges.Nodup ∧ ∀ e ∈ G.edges, e.1 ∈ G.nodes ∧ e.2 ∈ G.nodes

/- ### ortools/tools.py: bridge_graph and decomposition -/

/- tools.bridge_graph.  The Python test reads
   `G.in_degree[node]==1 & G.out_degree[node]==1`; by operator precedence
   this is the chained comparison
   `in_degree == (1 & out_degree)` and `(1 & out_degree) == 1`. -/
def bridge_graph (G : DiGraph N) : List N :=
  G.nodes.filter (fun node =>
    decide (in_degree G node = Nat.land 1 (out_degree G node)) &&
    decide (Nat.land 1 (out_degree G node) = 1))

/- G.remove_nodes_from(rem): drop the nodes and all incident edges. -/
def removeNodes (G : DiGraph N) (rem : List N) : DiGraph N :=
  ⟨G.nodes.filter (fun n => !(rem.contains n)),
   G.edges.filter (fun e => !(rem.contains e.1) && !(rem.contains e.2))⟩

/- Neighbors of u when edge direction is ignored. -/
def udNeighbors (G : DiGraph N) (u : N) : List N :=
  successors G u ++ predecessors G u

/- Fuel-bounded BFS collecting the weakly connected component of the seeds. -/
def bfsComp (G : DiGraph N) : ℕ → List N → List N → List N
  | 0, _, seen => seen
  | _ + 1, [], seen => seen
  | fuel + 1, u :: rest, seen =>
    if seen.contains u then bfsComp G fuel rest seen
    else bfsComp G fuel (rest ++ udNeighbors G u) (seen ++ [u])

/- Fuel that dominates every possible number of BFS frontier pops. -/
def wccFuel (G : DiGraph N) : ℕ :=
  (G.nodes.length + 1) * (2 * G.edges.length + 1) + 1

/- The weakly connected component containing s. -/
def component (G : DiGraph N) (s : N) : List N :=
  bfsComp G (wccFuel G) [s] []

/- nx.weakly_connected_components: components in order of first discovery
   while scanning G.nodes. -/
def wccAux (G : DiGraph N) : List N → List N → List (List N)
  | [], _ => []
  | n :: rest, seen =>
    if seen.contains n then wccAux G rest seen
    else component G n :: wccAux G rest (seen ++ component G n)

def wcc (G : DiGraph N) : List (List N) :=
  wccAux G G.nodes []

/- Stable insertion keeping lists ordered by descending length. -/
def insertByLen (x : List N) : List (List N) → List (List N)
  | [] => [x]
  | y :: ys => if x.length ≤ y.length then y :: insertByLen x ys else x :: y :: ys

/- sorted(..., key=len, reverse=True): stable descending order by size. -/
def sortByLenDesc (l : List (List N)) : List (List N) :=
  l.foldl (fun acc x => insertByLen x acc) []

/- nx.subgraph(G, s): the induced subgraph, node and edge order inherited. -/
def inducedSubgraph (G : DiGraph N) (s : List N) : DiGraph N :=
  ⟨G.nodes.filter (fun n => s.contains n),
   G.edges.filter (fun e => s.contains e.1 && s.contains e.2)⟩

/- G.add_node(n). -/
def add_node (G : DiGraph N) (n : N) : DiGraph N :=
  if G.nodes.contains n then G else ⟨G.nodes ++ [n], G.edges⟩

/- G.add_edge(u, v): register missing endpoints, then the edge if absent. -/
def add_edge (G : DiGraph N) (u v : N) : DiGraph N :=
  let G1 := add_node (add_node G u) v
  if G1.edges.contains (u, v) then G1 else ⟨G1.nodes, G1.edges ++ [(u, v)]⟩

/- tools.decomposition: remove the nodes selected by bridge_graph, split the
   remainder into weakly connected components (largest first), induce each
   block from G, then re-attach bridge k when the block contains its recorded
   predecessor node_pre[k] or successor node_suc[k].  The "nature" display
   attribute is not modelled; it never influences node or edge sets. -/
def decomposition (G : DiGraph N) : List (DiGraph N) :=
  let node_deg_2 := bridge_graph G
  let node_pre := (node_deg_2.map (fun n => predecessors G n)).flatten
  let node_suc := (node_deg_2.map (fun n => successors G n)).flatten
  let G_copy := removeNodes G node_deg_2
  let comps := sortByLenDesc (wcc G_copy)
  comps.map (fun set_nodes =>
    node_deg_2.enum.foldl (fun sg kn =>
      let sg1 :=
        match node_pre.get? kn.1 with
        | some p => if sg.nodes.contains p then add_edge (add_node sg kn.2) p kn.2 else sg
        | none => sg
      match node_suc.get? kn.1 with
      | some q => if sg1.nodes.contains q then add_edge (add_node sg1 kn.2) kn.2 q else sg1
      | none => sg1) (inducedSubgraph G set_nodes))

/- ### tools_base.py: check_path and recontruct_path -/

/- [node for node, d in G.in_degree() if d == 0], in node order. -/
def startNodes (G : DiGraph N) : List N :=
  G.nodes.filter (fun n => decide (in_degree G n = 0))

/- [node for node, d in G.out_degree() if d == 0], in node order. -/
def endNodes (G : DiGraph N) : List N :=
  G.nodes.filter (fun n => decide (out_degree G n = 0))

/- tools_base.check_path: exactly one source, exactly one sink, and every
   other node with in-degree 1 and out-degree 1. -/
def check_path (G : DiGraph N) : Bool :=
  match startNodes G, endNodes G with
  | [s], [e] =>
    (G.nodes.filter (fun n => !(decide (n = s)) && !(decide (n = e)))).all
      (fun n => decide (in_degree G n = 1) && decide (out_degree G n = 1))
  | _, _ => false

/- The while loop of recontruct_path: append the head of the current
   node_start list and continue with its successor list; none models a loop
   that has not finished within the given fuel. -/
def pyWalk (G : DiGraph N) : List N → ℕ → Option (List N)
  | _, 0 => none
  | [], _ + 1 => some []
  | c :: _, fuel + 1 => (pyWalk G (successors G c) fuel).map (fun l => c :: l)

/- tools_base.recontruct_path: walk from the unique source when check_path
   accepts the graph; none models the diagnostic branch (and, inside the
   walk, non-termination, which the proofs rule out). -/
def recontruct_path (G : DiGraph N) : Option (List N) :=
  if check_path G then pyWalk G (startNodes G) (G.nodes.length + 1) else none

/- ### reconstruit.py: find_path_always_first_neighbor -/

/- The while loop: take the first successor, stop on a dead end or on a
   successor that was already visited. -/
def find_path_aux (G : DiGraph N) : ℕ → List N → List N → N → Option (List N)
  | 0, _, _, _ => none
  | fuel + 1, visited, path, cat =>
    match successors G cat with
    | [] => some path
    | a :: _ =>
      if visited.contains a then some path
      else find_path_aux G fuel (a :: visited) (path ++ [a]) a

def find_path_always_first_neighbor (G : DiGraph N) (s : N) : Option (List N) :=
  find_path_aux G (G.nodes.length + 1) [s] [s] s

/- ### qubo_util.py / graph_path_problem.py -/

/- GraphPathProblem after update_edges_register: the graph together with the
   optional per-edge "weight" attribute (absent on every edge built by this
   pipeline). -/
structure GraphPathProblem (N : Type) where
  graph : DiGraph N
  weight : N × N → Option ℤ

/- Position of the first occurrence of x in l. -/
def listIdx {β : Type} [DecidableEq β] (l : List β) (x : β) : ℕ :=
  match l with
  | [] => 0
  | y :: t => if y = x then 0 else listIdx t x + 1

/- prob.edges_register after update_edges_register: the bidict maps the i-th
   edge of graph.edges() to i. -/
def edges_register (P : GraphPathProblem N) (e : N × N) : ℕ :=
  listIdx P.graph.edges e

/- graph.edges[i, j].get("weight", 1). -/
def edgeWeight (P : GraphPathProblem N) (e : N × N) : ℤ :=
  (P.weight e).getD 1

/- np.zeros((n, n)) viewed as a total matrix. -/
def Qzero : ℕ → ℕ → ℤ := fun _ _ => 0

/- Q[i, j] = v. -/
def Qset (Q : ℕ → ℕ → ℤ) (i j : ℕ) (v : ℤ) : ℕ → ℕ → ℤ :=
  fun a b => if a = i ∧ b = j then v else Q a b

/- Q[i, j] += v. -/
def Qadd (Q : ℕ → ℕ → ℤ) (i j : ℕ) (v : ℤ) : ℕ → ℕ → ℤ :=
  fun a b => if a = i ∧ b = j then Q a b + v else Q a b

/- qubo_util.get_qubo_main: the diagonal of intrinsic edge weights. -/
def get_qubo_main (P : GraphPathProblem N) : ℕ → ℕ → ℤ :=
  P.graph.nodes.foldl (fun Q i =>
    (successors P.graph i).foldl (fun Q j =>
      Qset Q (edges_register P (i, j)) (edges_register P (i, j))
        (edgeWeight P (i, j))) Q) Qzero

/- qubo_util.add_quad_in. -/
def add_quad_in (P : GraphPathProblem N) (Q : ℕ → ℕ → ℤ) (i : N) (val : ℤ) :
    ℕ → ℕ → ℤ :=
  (predecessors P.graph i).foldl (fun Q j =>
    (predecessors P.graph i).foldl (fun Q k =>
      Qadd Q (edges_register P (j, i)) (edges_register P (k, i)) val) Q) Q

/- qubo_util.add_quad_out. -/
def add_quad_out (P : GraphPathProblem N) (Q : ℕ → ℕ → ℤ) (i : N) (val : ℤ) :
    ℕ → ℕ → ℤ :=
  (successors P.graph i).foldl (fun Q j =>
    (successors P.graph i).foldl (fun Q k =>
      Qadd Q (edges_register P (i, j)) (edges_register P (i, k)) val) Q) Q

/- qubo_util.add_quad_mix. -/
def add_quad_mix (P : GraphPathProblem N) (Q : ℕ → ℕ → ℤ) (i : N) (val : ℤ) :
    ℕ → ℕ → ℤ :=
  (successors P.graph i).foldl (fun Q j =>
    (predecessors P.graph i).foldl (fun Q k =>
      Qadd Q (edges_register P (i, j)) (edges_register P (k, i)) val) Q) Q

/- qubo_util.add_lin_in. -/
def add_lin_in (P : GraphPathProblem N) (Q : ℕ → ℕ → ℤ) (j : N) (val : ℤ) :
    ℕ → ℕ → ℤ :=
  (predecessors P.graph j).foldl (fun Q i =>
    Qadd Q (edges_register P (i, j)) (edges_register P (i, j)) val) Q

/- qubo_util.add_lin_out. -/
def add_lin_out (P : GraphPathProblem N) (Q : ℕ → ℕ → ℤ) (i : N) (val : ℤ) :
    ℕ → ℕ → ℤ :=
  (successors P.graph i).foldl (fun Q j =>
    Qadd Q (edges_register P (i, j)) (edges_register P (i, j)) val) Q

/- qubo_util.get_qubo_out. -/
def get_qubo_out (P : GraphPathProblem N) : ℕ → ℕ → ℤ :=
  P.graph.nodes.foldl (fun Q i => add_quad_out P (add_lin_out P Q i (-2)) i 1) Qzero

/- qubo_util.get_qubo_in. -/
def get_qubo_in (P : GraphPathProblem N) : ℕ → ℕ → ℤ :=
  P.graph.nodes.foldl (fun Q j => add_quad_in P (add_lin_in P Q j (-2)) j 1) Qzero

/- qubo_util.get_qubo_flow. -/
def get_qubo_flow (P : GraphPathProblem N) : ℕ → ℕ → ℤ :=
  P.graph.nodes.foldl (fun Q i =>
    add_quad_in P (add_quad_mix P (add_quad_out P Q i 1) i (-2)) i 1) Qzero

/- qubo_util.get_qubo_flow_start. -/
def get_qubo_flow_start (P : GraphPathProblem N) (start : N) : ℕ → ℕ → ℤ :=
  add_lin_out P (add_lin_in P Qzero start (-2)) start 2

/- qubo_util.get_qubo_flow_finish. -/
def get_qubo_flow_finish (P : GraphPathProblem N) (finish : N) : ℕ → ℕ → ℤ :=
  add_lin_out P (add_lin_in P Qzero finish 2) finish (-2)

/- Pointwise matrix sum. -/
def Qsum (A B : ℕ → ℕ → ℤ) : ℕ → ℕ → ℤ := fun a b => A a b + B a b

/- Scalar multiple. -/
def Qsmul (c : ℤ) (A : ℕ → ℕ → ℤ) : ℕ → ℕ → ℤ := fun a b => c * A a b

/- qubo_util.symetrize: A + A.T - np.diag(A.diagonal()). -/
def symetrize (A : ℕ → ℕ → ℤ) : ℕ → ℕ → ℤ :=
  fun a b => A a b + A b a - (if a = b then A a b else 0)

/- qubo_util.get_qubo. -/
def get_qubo (P : GraphPathProblem N) (delta alpha beta gamma : ℤ)
    (start finish : Option N) : ℕ → ℕ → ℤ :=
  let Q_main := get_qubo_main P
  let Q_out := get_qubo_out P
  let Q_in := get_qubo_in P
  let Q_flow0 := get_qubo_flow P
  let Q_flow1 :=
    match start with
    | some s => Qsum Q_flow0 (get_qubo_flow_start P s)
    | none => Q_flow0
  let Q_flow :=
    match finish with
    | some f => Qsum Q_flow1 (get_qubo_flow_finish P f)
    | none => Q_flow1
  symetrize (Qsum (Qsum (Qsum (Qsmul delta Q_main) (Qsmul alpha Q_out))
    (Qsmul beta Q_in)) (Qsmul gamma Q_flow))

/- ### Objective values of bit vectors -/

def bitVal (b : Bool) : ℤ := if b then 1 else 0

/- x^T Q x for a two-variable QUBO, x = (x0, x1) in {0,1}^2. -/
def quboValue2 (Q : ℕ → ℕ → ℤ) (x0 x1 : Bool) : ℤ :=
  bitVal x0 * bitVal x0 * Q 0 0 + bitVal x0 * bitVal x1 * Q 0 1 +
  bitVal x1 * bitVal x0 * Q 1 0 + bitVal x1 * bitVal x1 * Q 1 1

/- ### Concrete instances used by the claims -/

/- Three-node chain A -> B -> C (nodes 0, 1, 2), both edges of default
   weight 1, with the registry of update_edges_register. -/
def chainProb : GraphPathProblem ℕ :=
  ⟨⟨[0, 1, 2], [(0, 1), (1, 2)]⟩, fun _ => none⟩

/- Single edge A -> B of default weight 1. -/
def edgeProb : GraphPathProblem ℕ :=
  ⟨⟨[0, 1], [(0, 1)]⟩, fun _ => none⟩

/- Star witness for the bridge bug: P -> X plus X -> A, X -> B, X -> C,
   with P = 0, X = 1, A = 2, B = 3, C = 4. -/
def starGraph : DiGraph ℕ :=
  ⟨[0, 1, 2, 3, 4], [(0, 1), (1, 2), (1, 3), (1, 4)]⟩

/- Diamond: S -> A, S -> B, A -> E, B -> E with S = 0, A = 1, B = 2, E = 3. -/
def diamondGraph : DiGraph ℕ :=
  ⟨[0, 1, 2, 3], [(0, 1), (0, 2), (1, 3), (2, 3)]⟩

/- Two-node directed cycle. -/
def cycleGraph : DiGraph ℕ :=
  ⟨[0, 1], [(0, 1), (1, 0)]⟩

/- Three-node path graph used by witnesses. -/
def pathGraph : DiGraph ℕ :=
  ⟨[0, 1, 2], [(0, 1), (1, 2)]⟩

/- ### Spec-side predicates -/

/- Double-stranded symmetry: every stored link has its mirror stored. -/
def MirrorClosed {M : Type} (g : List (SEdge M)) : Prop :=
  ∀ e ∈ g, mirrorEdge e ∈ g

/- Combined insertion invariant: mirror closure together with deduplication
   of every link that is not its own mirror. -/
def DedupInv {M : Type} [DecidableEq M] (g : List (SEdge M)) : Prop :=
  MirrorClosed g ∧ ∀ e : SEdge M, mirrorEdge e ≠ e → g.count e ≤ 1

/- One step of the deterministic walks: b is the first successor of a. -/
def stepRel (G : DiGraph N) (a b : N) : Prop :=
  (successors G a).head? = some b

/- ### Lemmas: signs and mirror edges -/

theorem reverse_sign_involutive (s : Sign) : reverse_sign (reverse_sign s) = s := by
  cases s <;> rfl

theorem mirrorEdge_involutive {M : Type} (e : SEdge M) :
    mirrorEdge (mirrorEdge e) = e := by
  obtain ⟨u, v, s1, s2⟩ := e
  simp [mirrorEdge, reverse_sign_involutive]

theorem edge_with_sign_exists_iff {M : Type} [DecidableEq M]
    (g : List (SEdge M)) (u v : M) (s1 s2 : Sign) :
    edge_with_sign_exists g u v s1 s2 = true ↔ (u, v, s1, s2) ∈ g := by
  unfold edge_with_sign_exists
  rw [List.any_eq_true]
  constructor
  · rintro ⟨e, he, hmatch⟩
    obtain ⟨e1, e2, e3, e4⟩ := e
    simp only [Bool.and_eq_true, decide_eq_true_eq] at hmatch
    obtain ⟨⟨⟨h1, h2⟩, h3⟩, h4⟩ := hmatch
    subst h1; subst h2; subst h3; subst h4
    exact he
  · intro h
    exact ⟨(u, v, s1, s2), h, by simp⟩

theorem mirrorClosed_add {M : Type} [DecidableEq M] {g : List (SEdge M)}
    (hg : MirrorClosed g) (v1 v2 : M) (s1 s2 : Sign) :
    MirrorClosed (add_de_bruijn_edge g v1 v2 s1 s2) := by
  intro e he
  by_cases hx : edge_with_sign_exists g v1 v2 s1 s2
  · rw [add_de_bruijn_edge, if_pos hx] at he ⊢
    exact hg e he
  · rw [add_de_bruijn_edge, if_neg hx] at he ⊢
    rcases List.mem_append.1 he with hmem | hnew
    · exact List.mem_append.2 (Or.inl (hg e hmem))
    · refine List.mem_append.2 (Or.inr ?_)
      rcases List.mem_cons.1 hnew with h1 | h1
      · rw [h1]
        show ((v2, v1, reverse_sign s2, reverse_sign s1) : SEdge M) ∈ _
        exact List.mem_cons_of_mem _ (List.mem_cons_self _ _)
      · rcases List.mem_cons.1 h1 with h2 | h2
        · rw [h2]
          have hmm : mirrorEdge ((v2, v1, reverse_sign s2, reverse_sign s1) : SEdge M) =
              (v1, v2, s1, s2) := by
            simp [mirrorEdge, reverse_sign_involutive]
          rw [hmm]
          exact List.mem_cons_self _ _
        · exact absurd h2 (List.not_mem_nil e)

theorem mirrorClosed_foldl {M : Type} [DecidableEq M]
    (ops : List (SEdge M)) :
    ∀ g : List (SEdge M), MirrorClosed g →
      MirrorClosed (ops.foldl
        (fun g e => add_de_bruijn_edge g e.1 e.2.1 e.2.2.1 e.2.2.2) g) := by
  induction ops with
  | nil => intro g hg; exact hg
  | cons op rest ih =>
    intro g hg
    exact ih _ (mirrorClosed_add hg op.1 op.2.1 op.2.2.1 op.2.2.2)

/-- C2: every graph built from the empty graph by a sequence of insertions
through add_de_bruijn_edge satisfies the double-stranded symmetry invariant:
for every stored link (u, v, s1, s2), the mirror link
(v, u, reverse s2, reverse s1) is also stored. -/
theorem C2_mirror_invariant {M : Type} [DecidableEq M]
    (ops : List (SEdge M)) (e : SEdge M) (he : e ∈ build_de_bruijn ops) :
    mirrorEdge e ∈ build_de_bruijn ops := by
  have h := mirrorClosed_foldl ops [] (by intro e he; cases he)
  exact h e he

theorem C2_mirror_invariant_witness :
    ((0, 1, Sign.plus, Sign.plus) : SEdge ℕ) ∈
      build_de_bruijn [((0 : ℕ), 1, Sign.plus, Sign.plus)] ∧
    mirrorEdge ((0, 1, Sign.plus, Sign.plus) : SEdge ℕ) ∈
      build_de_bruijn [((0 : ℕ), 1, Sign.plus, Sign.plus)] :=
  ⟨by decide, C2_mirror_invariant _ _ (by decide)⟩

/- ### C7: deduplication invariant -/

/-- C7 counterexample: inserting the self-loop (0, 0, +, -) into the empty
graph stores the identical link twice, because the mandatory mirror of this
link is the link itself.  This refutes "at most one stored edge per
(u, v, sign_begin, sign_end) tuple ... including insertions of self-loops". -/
theorem C7_counterexample :
    (build_de_bruijn [((0 : ℕ), 0, Sign.plus, Sign.minus)]).count
      (0, 0, Sign.plus, Sign.minus) = 2 := by decide

theorem dedupInv_add {M : Type} [DecidableEq M] {g : List (SEdge M)}
    (hg : DedupInv g) (v1 v2 : M) (s1 s2 : Sign) :
    DedupInv (add_de_bruijn_edge g v1 v2 s1 s2) := by
  refine ⟨mirrorClosed_add hg.1 v1 v2 s1 s2, ?_⟩
  intro e hmir
  by_cases hx : edge_with_sign_exists g v1 v2 s1 s2
  · rw [add_de_bruijn_edge, if_pos hx]
    exact hg.2 e hmir
  · rw [add_de_bruijn_edge, if_neg hx]
    have hne : (v1, v2, s1, s2) ∉ g := fun hmem =>
      hx ((edge_with_sign_exists_iff g v1 v2 s1 s2).2 hmem)
    have hmirne : mirrorEdge (v1, v2, s1, s2) ∉ g := by
      intro hmem
      have h2 := hg.1 _ hmem
      rw [mirrorEdge_involutive] at h2
      exact hne h2
    have hlist : [(v1, v2, s1, s2), (v2, v1, reverse_sign s2, reverse_sign s1)] =
        [(v1, v2, s1, s2), mirrorEdge (v1, v2, s1, s2)] := rfl
    rw [hlist, List.count_append]
    by_cases h1 : e = (v1, v2, s1, s2)
    · have hz : g.count e = 0 := by
        rw [h1]
        exact List.count_eq_zero.2 hne
      have b1 : (((v1, v2, s1, s2) : SEdge M) == e) = true := by
        rw [beq_iff_eq, h1]
      have b2 : ((mirrorEdge (v1, v2, s1, s2) : SEdge M) == e) = false := by
        rw [beq_eq_false_iff_ne, h1]
        rw [h1] at hmir
        exact hmir
      rw [hz]
      simp only [List.count_cons, List.count_nil, b1, b2]
      decide
    · by_cases h2 : e = mirrorEdge (v1, v2, s1, s2)
      · have hz : g.count e = 0 := by
          rw [h2]
          exact List.count_eq_zero.2 hmirne
        have b1 : (((v1, v2, s1, s2) : SEdge M) == e) = false := by
          rw [beq_eq_false_iff_ne]
          exact fun hh => h1 hh.symm
        have b2 : ((mirrorEdge (v1, v2, s1, s2) : SEdge M) == e) = true := by
          rw [beq_iff_eq, h2]
        rw [hz]
        simp only [List.count_cons, List.count_nil, b1, b2]
        decide
      · have b1 : (((v1, v2, s1, s2) : SEdge M) == e) = false := by
          rw [beq_eq_false_iff_ne]
          exact fun hh => h1 hh.symm
        have b2 : ((mirrorEdge (v1, v2, s1, s2) : SEdge M) == e) = false := by
          rw [beq_eq_false_iff_ne]
          exact fun hh => h2 hh.symm
        have hz : List.count e [(v1, v2, s1, s2), mirrorEdge (v1, v2, s1, s2)] = 0 := by
          simp only [List.count_cons, List.count_nil, b1, b2]
          decide
        rw [hz]
        simpa using hg.2 e hmir

theorem dedupInv_foldl {M : Type} [DecidableEq M] (ops : List (SEdge M)) :
    ∀ g : List (SEdge M), DedupInv g →
      DedupInv (ops.foldl
        (fun g e => add_de_bruijn_edge g e.1 e.2.1 e.2.2.1 e.2.2.2) g) := by
  induction ops with
  | nil => intro g hg; exact hg
  | cons op rest ih =>
    intro g hg
    exact ih _ (dedupInv_add hg op.1 op.2.1 op.2.2.1 op.2.2.2)

/-- C7 amended: after every sequence of insertions through
add_de_bruijn_edge starting from the empty graph, every link tuple that is
not its own mirror is stored at most once; the exception forced by the
counterexample is a self-loop whose sign_end is the reverse of its
sign_begin, which is its own mirror and is stored twice by one insertion. -/
theorem C7_dedup_amended {M : Type} [DecidableEq M]
    (ops : List (SEdge M)) (e : SEdge M) (hmir : mirrorEdge e ≠ e) :
    (build_de_bruijn ops).count e ≤ 1 := by
  have hnil : DedupInv ([] : List (SEdge M)) := by
    constructor
    · intro x hx
      exact absurd hx (List.not_mem_nil x)
    · intro x _
      simp
  exact (dedupInv_foldl ops [] hnil).2 e hmir

theorem C7_dedup_amended_witness :
    mirrorEdge ((0, 1, Sign.plus, Sign.plus) : SEdge ℕ) ≠
      (0, 1, Sign.plus, Sign.plus) ∧
    (build_de_bruijn [((0 : ℕ), 1, Sign.plus, Sign.plus)]).count
      (0, 1, Sign.plus, Sign.plus) ≤ 1 :=
  ⟨by decide, C7_dedup_amended _ _ (by decide)⟩

/- ### Lemmas: reverse_complement -/

theorem complementMap_some_eq {c d : Char} (h : complementMap c = some d) :
    validBase c = true ∧ d = compBase c := by
  rw [complementMap.eq_def] at h
  split at h
  · injection h with h3
    refine ⟨by decide, ?_⟩
    rw [← h3]
    decide
  · injection h with h3
    refine ⟨by decide, ?_⟩
    rw [← h3]
    decide
  · injection h with h3
    refine ⟨by decide, ?_⟩
    rw [← h3]
    decide
  · injection h with h3
    refine ⟨by decide, ?_⟩
    rw [← h3]
    decide
  · exact absurd h (by simp)

theorem validBase_cases {c : Char} (h : validBase c = true) :
    c = 'A' ∨ c = 'C' ∨ c = 'G' ∨ c = 'T' := by
  have h2 : ((c = 'A' ∨ c = 'C') ∨ c = 'G') ∨ c = 'T' := by
    simpa [validBase] using h
  tauto

theorem complementMap_of_valid {c : Char} (h : validBase c = true) :
    complementMap c = some (compBase c) := by
  rcases validBase_cases h with h1 | h1 | h1 | h1 <;> subst h1 <;> decide

theorem complementMap_none_iff {c : Char} :
    complementMap c = none ↔ validBase c = false := by
  constructor
  · intro h
    cases hv : validBase c with
    | false => rfl
    | true =>
      rw [complementMap_of_valid hv] at h
      cases h
  · intro h
    cases hc : complementMap c with
    | none => rfl
    | some d =>
      have hvt := (complementMap_some_eq hc).1
      rw [h] at hvt
      cases hvt

theorem joinComplement_cons (c : Char) (rest : List Char) :
    joinComplement (c :: rest) =
      match complementMap c with
      | none => none
      | some d => (joinComplement rest).map (fun l => d :: l) := rfl

theorem joinComplement_eq_none_iff (l : List Char) :
    joinComplement l = none ↔ ∃ c ∈ l, complementMap c = none := by
  induction l with
  | nil => simp [joinComplement]
  | cons c rest ih =>
    rw [joinComplement_cons]
    cases hc : complementMap c with
    | none =>
      constructor
      · intro _
        exact ⟨c, List.mem_cons_self c rest, hc⟩
      · intro _
        rfl
    | some d =>
      constructor
      · intro h
        have hrest : joinComplement rest = none := by
          cases hrest : joinComplement rest with
          | none => rfl
          | some r =>
            rw [hrest] at h
            cases h
        rcases ih.1 hrest with ⟨x, hx, hxn⟩
        exact ⟨x, List.mem_cons_of_mem c hx, hxn⟩
      · rintro ⟨x, hx, hxn⟩
        rcases List.mem_cons.1 hx with h1 | h1
        · rw [h1] at hxn
          rw [hxn] at hc
          cases hc
        · rw [ih.2 ⟨x, h1, hxn⟩]
          rfl

theorem joinComplement_some_eq (l : List Char) (r : List Char)
    (h : joinComplement l = some r) : r = l.map compBase := by
  induction l generalizing r with
  | nil =>
    rw [joinComplement] at h
    injection h with h2
    rw [← h2]
    rfl
  | cons c rest ih =>
    rw [joinComplement_cons] at h
    cases hc : complementMap c with
    | none =>
      rw [hc] at h
      cases h
    | some d =>
      rw [hc] at h
      cases hrest : joinComplement rest with
      | none =>
        rw [hrest] at h
        cases h
      | some r0 =>
        rw [hrest] at h
        injection h with h2
        rw [← h2, List.map_cons, ← ih r0 hrest, (complementMap_some_eq hc).2]

theorem joinComplement_of_valid (l : List Char)
    (h : ∀ c ∈ l, validBase c = true) :
    joinComplement l = some (l.map compBase) := by
  induction l with
  | nil => rfl
  | cons c rest ih =>
    rw [joinComplement_cons, complementMap_of_valid (h c (List.mem_cons_self c rest)),
      ih (fun x hx => h x (List.mem_cons_of_mem c hx))]
    rfl

theorem reverse_complement_eq_none_iff (s : List Char) :
    reverse_complement s = none ↔
      ∃ c ∈ pyStrip s, validBase c.toUpper = false := by
  rw [reverse_complement, joinComplement_eq_none_iff]
  constructor
  · rintro ⟨c, hc, hcn⟩
    rw [List.mem_reverse] at hc
    rcases List.mem_map.1 hc with ⟨a, ha, haeq⟩
    refine ⟨a, ha, ?_⟩
    rw [haeq, ← complementMap_none_iff]
    exact hcn
  · rintro ⟨a, ha, han⟩
    refine ⟨a.toUpper, ?_, complementMap_none_iff.2 han⟩
    rw [List.mem_reverse]
    exact List.mem_map.2 ⟨a, ha, rfl⟩

/-- C8 counterexample: the input "A " contains a character, the space, that
is not in {A, C, G, T} even case-insensitively, yet reverse_complement does
not raise: str.strip() removes the surrounding whitespace first and the call
returns "T".  This refutes the "raises if" direction of the claim. -/
theorem C8_counterexample :
    (' ' ∈ ['A', ' ']) ∧ validBase (Char.toUpper ' ') = false ∧
      reverse_complement ['A', ' '] = some ['T'] := by decide

/-- C8 amended: reverse_complement raises if and only if the sequence
obtained after stripping leading and trailing whitespace contains a
character outside {A, C, G, T} case-insensitively; on success it returns
the reversed base-complement of the stripped, upper-cased sequence. -/
theorem C8_error_amended (s : List Char) :
    (reverse_complement s = none ↔
      ∃ c ∈ pyStrip s, validBase c.toUpper = false) ∧
    (∀ r, reverse_complement s = some r →
      r = ((pyStrip s).map (fun c => compBase c.toUpper)).reverse) := by
  refine ⟨reverse_complement_eq_none_iff s, ?_⟩
  intro r hr
  rw [reverse_complement] at hr
  rw [joinComplement_some_eq _ _ hr, List.map_reverse, List.map_map]
  rfl

theorem C8_error_amended_witness :
    reverse_complement ['a'] = some ['T'] ∧
      (['T'] : List Char) =
        ((pyStrip ['a']).map (fun c => compBase c.toUpper)).reverse :=
  ⟨by decide, (C8_error_amended ['a']).2 ['T'] (by decide)⟩

/- ### C10: involution on valid sequences -/

theorem validBase_not_space {c : Char} (h : validBase c = true) :
    pyIsSpace c = false := by
  rcases validBase_cases h with h1 | h1 | h1 | h1 <;> subst h1 <;> decide

theorem toUpper_of_valid {c : Char} (h : validBase c = true) :
    Char.toUpper c = c := by
  rcases validBase_cases h with h1 | h1 | h1 | h1 <;> subst h1 <;> decide

theorem compBase_valid {c : Char} (h : validBase c = true) :
    validBase (compBase c) = true := by
  rcases validBase_cases h with h1 | h1 | h1 | h1 <;> subst h1 <;> decide

theorem compBase_compBase {c : Char} (h : validBase c = true) :
    compBase (compBase c) = c := by
  rcases validBase_cases h with h1 | h1 | h1 | h1 <;> subst h1 <;> decide

theorem dropWhile_eq_self_of {p : Char → Bool} (l : List Char)
    (h : ∀ c ∈ l, p c = false) : l.dropWhile p = l := by
  cases l with
  | nil => rfl
  | cons c t => simp [List.dropWhile_cons, h c (List.mem_cons_self c t)]

theorem pyStrip_of_valid (s : List Char) (h : ∀ c ∈ s, validBase c = true) :
    pyStrip s = s := by
  have h1 : ∀ c ∈ s, pyIsSpace c = false := fun c hc =>
    validBase_not_space (h c hc)
  rw [pyStrip, dropWhile_eq_self_of s h1,
    dropWhile_eq_self_of s.reverse (fun c hc => h1 c (List.mem_reverse.1 hc)),
    List.reverse_reverse]

theorem map_toUpper_of_valid (s : List Char)
    (h : ∀ c ∈ s, validBase c = true) : s.map Char.toUpper = s := by
  have h2 : s.map Char.toUpper = s.map id :=
    List.map_congr_left fun a ha => toUpper_of_valid (h a ha)
  rw [h2, List.map_id]

theorem reverse_complement_of_valid (s : List Char)
    (h : ∀ c ∈ s, validBase c = true) :
    reverse_complement s = some ((s.map compBase).reverse) := by
  rw [reverse_complement, pyStrip_of_valid s h, map_toUpper_of_valid s h,
    joinComplement_of_valid _ (fun c hc => h c (List.mem_reverse.1 hc)),
    List.map_reverse]

/-- C10: on sequences over the upper-case alphabet {A, C, G, T} (hence with
no surrounding whitespace), reverse_complement succeeds, preserves length,
and is an involution: applying it twice returns the original sequence. -/
theorem C10_involution (s : List Char) (h : ∀ c ∈ s, validBase c = true) :
    ∃ t, reverse_complement s = some t ∧ t.length = s.length ∧
      reverse_complement t = some s := by
  refine ⟨(s.map compBase).reverse, reverse_complement_of_valid s h, ?_, ?_⟩
  · rw [List.length_reverse, List.length_map]
  · have ht : ∀ c ∈ (s.map compBase).reverse, validBase c = true := by
      intro c hc
      rw [List.mem_reverse] at hc
      rcases List.mem_map.1 hc with ⟨a, ha, haeq⟩
      rw [← haeq]
      exact compBase_valid (h a ha)
    rw [reverse_complement_of_valid _ ht]
    have h2 : (((s.map compBase).reverse.map compBase).reverse : List Char) = s := by
      rw [List.map_reverse, List.reverse_reverse, List.map_map]
      have h3 : s.map (compBase ∘ compBase) = s.map id :=
        List.map_congr_left fun a ha => compBase_compBase (h a ha)
      rw [h3, List.map_id]
    rw [h2]

theorem C10_involution_witness :
    ∃ t, reverse_complement ['A', 'C'] = some t ∧
      t.length = (['A', 'C'] : List Char).length ∧
      reverse_complement t = some ['A', 'C'] :=
  C10_involution ['A', 'C'] (by decide)

/- ### C3 and C4: the bridge selection bug and its downstream effect -/

/-- C3: evaluation at the failing input.  In starGraph, node 1 has in-degree
1 and out-degree 3, yet bridge_graph returns exactly [1]: the Python test
`G.in_degree[node]==1 & G.out_degree[node]==1` parses as the chained
comparison `in_degree == (1 & out_degree) == 1`, which accepts every node of
in-degree 1 and odd out-degree, contradicting the function's own docstring
("a liste of node of degree 2: one incoming and one outgoing"). -/
theorem C3_bridge_eval :
    bridge_graph starGraph = [1] ∧ in_degree starGraph 1 = 1 ∧
      out_degree starGraph 1 = 3 := by decide

/-- C4: evaluation at the failing input.  starGraph has no bridge node (no
node has in-degree 1 and out-degree 1), so the claim's sharing hypothesis
holds vacuously; yet decomposition removes node 1 (selected by the buggy
bridge_graph despite out-degree 3) and re-attaches it to two distinct
blocks, so the non-bridge node 1 appears in more than one returned block. -/
theorem C4_decomposition_eval :
    starGraph.nodes.all
        (fun n => !(decide (in_degree starGraph n = 1) &&
          decide (out_degree starGraph n = 1))) = true ∧
      (decomposition starGraph).map DiGraph.nodes = [[0, 1], [2, 1], [3], [4]] ∧
      in_degree starGraph 1 = 1 ∧ out_degree starGraph 1 = 3 := by decide

/- ### C1: the three-node chain QUBO -/

/-- C1: for the chain 0 -> 1 -> 2 with intrinsic weights 1, registry
{(0,1) -> 0, (1,2) -> 1}, delta = 1, alpha = beta = gamma = 5 and no start
or finish node, the bit vector (1, 1) selecting both edges is the unique
minimizer of x^T Q x over {0,1}^2 for the matrix Q returned by get_qubo. -/
theorem C1_chain_minimizer :
    ∀ x0 x1 : Bool, (x0 = true ∧ x1 = true) ∨
      quboValue2 (get_qubo chainProb 1 5 5 5 none none) true true <
        quboValue2 (get_qubo chainProb 1 5 5 5 none none) x0 x1 := by decide

/- ### C5: check_path and recontruct_path -/

/-- C5 counterexample: the diamond graph 0 -> 1, 0 -> 2, 1 -> 3, 2 -> 3
passes check_path (one source, one sink, internal nodes of in- and
out-degree 1), but recontruct_path returns [0, 1, 3], which omits node 2:
the returned list does not contain every node of the graph. -/
theorem C5_counterexample :
    check_path diamondGraph = true ∧
      recontruct_path diamondGraph = some [0, 1, 3] ∧
      diamondGraph.nodes.contains 2 = true ∧
      ([0, 1, 3] : List ℕ).contains 2 = false := by decide

/- ### Lemmas: degrees, successors and walks -/

theorem mem_successors {G : DiGraph N} {a b : N} :
    b ∈ successors G a ↔ (a, b) ∈ G.edges := by
  constructor
  · intro h
    rcases List.mem_map.1 h with ⟨e, he, heq⟩
    rcases List.mem_filter.1 he with ⟨hmem, hdec⟩
    have h1 : e.1 = a := of_decide_eq_true hdec
    have hprod : e = (a, b) := by
      rw [Prod.ext_iff]
      exact ⟨h1, heq⟩
    rw [← hprod]
    exact hmem
  · intro h
    refine List.mem_map.2 ⟨(a, b), List.mem_filter.2 ⟨h, by simp⟩, rfl⟩

theorem length_successors (G : DiGraph N) (a : N) :
    (successors G a).length = out_degree G a := by
  rw [successors, out_degree, List.length_map]

theorem stepRel_edge (G : DiGraph N) {a b : N} (h : stepRel G a b) :
    (a, b) ∈ G.edges := by
  apply mem_successors.1
  cases hs : successors G a with
  | nil =>
    rw [stepRel, hs] at h
    cases h
  | cons c t =>
    rw [stepRel, hs] at h
    injection h with h2
    rw [← h2]
    exact List.mem_cons_self c t

theorem out_degree_pos_of_step (G : DiGraph N) {a b : N} (h : stepRel G a b) :
    0 < out_degree G a := by
  rw [← length_successors]
  cases hs : successors G a with
  | nil =>
    rw [stepRel, hs] at h
    cases h
  | cons c t => simp

theorem edge_in_degree_pos (G : DiGraph N) {a v : N} (h : (a, v) ∈ G.edges) :
    0 < in_degree G v := by
  rw [in_degree]
  have hmem : (a, v) ∈ G.edges.filter (fun e => decide (e.2 = v)) :=
    List.mem_filter.2 ⟨h, by simp⟩
  exact List.length_pos_of_mem hmem

theorem in_degree_unique (G : DiGraph N) {a b v : N}
    (h1 : in_degree G v = 1) (ha : (a, v) ∈ G.edges) (hb : (b, v) ∈ G.edges) :
    a = b := by
  rw [in_degree] at h1
  rcases List.length_eq_one.1 h1 with ⟨x, hx⟩
  have hma : (a, v) ∈ G.edges.filter (fun e => decide (e.2 = v)) :=
    List.mem_filter.2 ⟨ha, by simp⟩
  have hmb : (b, v) ∈ G.edges.filter (fun e => decide (e.2 = v)) :=
    List.mem_filter.2 ⟨hb, by simp⟩
  rw [hx] at hma hmb
  have h2 := List.mem_singleton.1 hma
  have h3 := List.mem_singleton.1 hmb
  have h4 : ((a, v) : N × N) = (b, v) := h2.trans h3.symm
  exact congrArg Prod.fst h4

theorem mem_startNodes (G : DiGraph N) {x : N} :
    x ∈ startNodes G ↔ x ∈ G.nodes ∧ in_degree G x = 0 := by
  rw [startNodes, List.mem_filter]
  simp

theorem mem_endNodes (G : DiGraph N) {x : N} :
    x ∈ endNodes G ↔ x ∈ G.nodes ∧ out_degree G x = 0 := by
  rw [endNodes, List.mem_filter]
  simp

theorem nodup_subset_length {l nodes : List N} (hnd : l.Nodup)
    (hsub : ∀ x ∈ l, x ∈ nodes) : l.length ≤ nodes.length := by
  have h1 : l.toFinset.card = l.length := List.toFinset_card_of_nodup hnd
  have h2 : l.toFinset ⊆ nodes.toFinset := by
    intro x hx
    exact List.mem_toFinset.2 (hsub x (List.mem_toFinset.1 hx))
  calc l.length = l.toFinset.card := h1.symm
    _ ≤ nodes.toFinset.card := Finset.card_le_card h2
    _ ≤ nodes.length := List.toFinset_card_le nodes

theorem head?_append_left (l l2 : List N) (h : l ≠ []) :
    (l ++ l2).head? = l.head? := by
  cases l with
  | nil => exact absurd rfl h
  | cons c t => rfl

theorem get_zero_of_head? {l : List N} {s : N} (h : l.head? = some s)
    (hl : 0 < l.length) : l.get ⟨0, hl⟩ = s := by
  cases l with
  | nil => cases h
  | cons c t => injection h

theorem chain'_get_succ {R : N → N → Prop} {l : List N}
    (h : List.Chain' R l) {i j : ℕ} (hij : i + 1 = j) (hj : j < l.length) :
    R (l.get ⟨i, by omega⟩) (l.get ⟨j, hj⟩) := by
  subst hij
  exact List.chain'_iff_get.1 h i (by omega)

theorem chain_mem_nodes (G : DiGraph N) (hwf : WF G) :
    ∀ l : List N, List.Chain' (stepRel G) l →
      ∀ s, l.head? = some s → s ∈ G.nodes → ∀ x ∈ l, x ∈ G.nodes := by
  intro l
  induction l with
  | nil =>
    intro _ _ _ _ x hx
    exact absurd hx (List.not_mem_nil x)
  | cons c t ih =>
    intro hchain s hhead hsnode x hx
    have hcs : c = s := by injection hhead
    rcases List.mem_cons.1 hx with h1 | h1
    · rw [h1, hcs]
      exact hsnode
    · cases t with
      | nil => exact absurd h1 (List.not_mem_nil x)
      | cons c2 t2 =>
        have hsplit := List.chain'_cons'.1 hchain
        have hstep : stepRel G c c2 := hsplit.1 c2 rfl
        have hc2 : c2 ∈ G.nodes := (hwf.2.2 _ (stepRel_edge G hstep)).2
        exact ih hsplit.2 c2 rfl hc2 x h1

/- ### Lemmas: the recontruct_path walk -/

theorem pyWalk_some_chain (G : DiGraph N) :
    ∀ (fuel : ℕ) (cur l : List N), pyWalk G cur fuel = some l →
      List.Chain' (stepRel G) l ∧ l.head? = cur.head? := by
  intro fuel
  induction fuel with
  | zero =>
    intro cur l h
    cases cur with
    | nil => cases h
    | cons c rest => cases h
  | succ f ih =>
    intro cur l h
    cases cur with
    | nil =>
      injection h with h2
      rw [← h2]
      exact ⟨List.chain'_nil, rfl⟩
    | cons c rest =>
      rw [pyWalk] at h
      cases hw : pyWalk G (successors G c) f with
      | none =>
        rw [hw] at h
        cases h
      | some l0 =>
        rw [hw] at h
        injection h with h2
        obtain ⟨hchain, hhead⟩ := ih (successors G c) l0 hw
        constructor
        · rw [← h2, List.chain'_cons']
          refine ⟨?_, hchain⟩
          intro b hb
          rw [Option.mem_def, hhead] at hb
          exact hb
        · rw [← h2]
          rfl

theorem pyWalk_none_chain (G : DiGraph N) :
    ∀ (fuel : ℕ) (c : N) (rest : List N),
      pyWalk G (c :: rest) fuel = none →
      ∃ l, List.Chain' (stepRel G) l ∧ l.head? = some c ∧ fuel ≤ l.length := by
  intro fuel
  induction fuel with
  | zero =>
    intro c rest _
    exact ⟨[c], List.chain'_singleton c, rfl, by simp⟩
  | succ f ih =>
    intro c rest h
    rw [pyWalk] at h
    have hw : pyWalk G (successors G c) f = none := by
      cases hw2 : pyWalk G (successors G c) f with
      | none => rfl
      | some l0 =>
        rw [hw2] at h
        cases h
    cases hsucc : successors G c with
    | nil =>
      rw [hsucc] at hw
      cases f with
      | zero => exact ⟨[c], List.chain'_singleton c, rfl, by simp⟩
      | succ f0 => cases hw
    | cons c2 rest2 =>
      rw [hsucc] at hw
      obtain ⟨l, hchain, hhead, hlen⟩ := ih c2 rest2 hw
      refine ⟨c :: l, ?_, rfl, ?_⟩
      · rw [List.chain'_cons']
        refine ⟨?_, hchain⟩
        intro b hb
        rw [Option.mem_def, hhead] at hb
        injection hb with hb2
        rw [stepRel, hsucc, ← hb2]
        rfl
      · have hlc : (c :: l).length = l.length + 1 := rfl
        omega

theorem check_path_props (G : DiGraph N) (h : check_path G = true) :
    ∃ s e, startNodes G = [s] ∧ endNodes G = [e] ∧
      ∀ n ∈ G.nodes, n ≠ s → n ≠ e →
        in_degree G n = 1 ∧ out_degree G n = 1 := by
  rw [check_path] at h
  split at h
  · rename_i s e heq1 heq2
    refine ⟨s, e, heq1, heq2, ?_⟩
    intro n hn hns hne
    have hmemf : n ∈ G.nodes.filter
        (fun n => !(decide (n = s)) && !(decide (n = e))) := by
      refine List.mem_filter.2 ⟨hn, ?_⟩
      simp [hns, hne]
    have h2 := List.all_eq_true.1 h n hmemf
    simp only [Bool.and_eq_true, decide_eq_true_eq] at h2
    exact h2
  · cases h

theorem chain_from_source_nodup (G : DiGraph N) (hwf : WF G)
    (hcheck : check_path G = true) (l : List N)
    (hchain : List.Chain' (stepRel G) l) (s : N)
    (hs : startNodes G = [s]) (hhead : l.head? = some s) : l.Nodup := by
  obtain ⟨s0, e0, hs0, he0, hall⟩ := check_path_props G hcheck
  have hss : s0 = s := by
    rw [hs0] at hs
    injection hs with h1 _
  subst hss
  have hsboth := (mem_startNodes G).1 (by rw [hs0]; exact List.mem_singleton_self s0)
  have hsdeg : in_degree G s0 = 0 := hsboth.2
  have hedeg : out_degree G e0 = 0 :=
    ((mem_endNodes G).1 (by rw [he0]; exact List.mem_singleton_self e0)).2
  have hmemN : ∀ x ∈ l, x ∈ G.nodes :=
    chain_mem_nodes G hwf l hchain s0 hhead hsboth.1
  rw [List.nodup_iff_injective_get]
  have key : ∀ i : ℕ, ∀ (hi : i < l.length) (j : ℕ) (hj : j < l.length),
      i < j → l.get ⟨i, hi⟩ ≠ l.get ⟨j, hj⟩ := by
    intro i
    induction i using Nat.strong_induction_on with
    | _ i ih =>
      intro hi j hj hij heq
      have hj1 : j - 1 < l.length := by omega
      have hstepj : stepRel G (l.get ⟨j - 1, hj1⟩) (l.get ⟨j, hj⟩) :=
        chain'_get_succ hchain (by omega) hj
      have hedgej : (l.get ⟨j - 1, hj1⟩, l.get ⟨j, hj⟩) ∈ G.edges :=
        stepRel_edge G hstepj
      by_cases hi0 : i = 0
      · have hgets : l.get ⟨i, hi⟩ = s0 := by
          subst hi0
          exact get_zero_of_head? hhead hi
        have hpos : 0 < in_degree G (l.get ⟨j, hj⟩) :=
          edge_in_degree_pos G hedgej
        rw [← heq, hgets, hsdeg] at hpos
        omega
      · have hi1 : i - 1 < l.length := by omega
        have hstepi : stepRel G (l.get ⟨i - 1, hi1⟩) (l.get ⟨i, hi⟩) :=
          chain'_get_succ hchain (by omega) hi
        have hedgei : (l.get ⟨i - 1, hi1⟩, l.get ⟨i, hi⟩) ∈ G.edges :=
          stepRel_edge G hstepi
        have hstepv : stepRel G (l.get ⟨i, hi⟩) (l.get ⟨i + 1, by omega⟩) :=
          chain'_get_succ hchain rfl (by omega)
        have houtpos : 0 < out_degree G (l.get ⟨i, hi⟩) :=
          out_degree_pos_of_step G hstepv
        have hinpos : 0 < in_degree G (l.get ⟨i, hi⟩) :=
          edge_in_degree_pos G hedgei
        have hvnode : l.get ⟨i, hi⟩ ∈ G.nodes := hmemN _ (l.get_mem i hi)
        have hvs : l.get ⟨i, hi⟩ ≠ s0 := by
          intro hh
          rw [hh, hsdeg] at hinpos
          omega
        have hve : l.get ⟨i, hi⟩ ≠ e0 := by
          intro hh
          rw [hh, hedeg] at houtpos
          omega
        have hdeg1 : in_degree G (l.get ⟨i, hi⟩) = 1 :=
          (hall _ hvnode hvs hve).1
        have heqprev : l.get ⟨i - 1, hi1⟩ = l.get ⟨j - 1, hj1⟩ := by
          rw [← heq] at hedgej
          exact in_degree_unique G hdeg1 hedgei hedgej
        exact ih (i - 1) (by omega) hi1 (j - 1) hj1 (by omega) heqprev
  intro i j heq
  rcases lt_trichotomy i.val j.val with hlt | heqv | hgt
  · exact absurd heq (key i.1 i.2 j.1 j.2 hlt)
  · exact Fin.ext heqv
  · exact absurd heq.symm (key j.1 j.2 i.1 i.2 hgt)

/-- C5 amended: whenever check_path accepts a graph, recontruct_path
terminates and returns a duplicate-free list that starts at the unique
in-degree-0 node and whose consecutive pairs are edges of the graph; the
list need not contain every node of the graph (the diamond counterexample
omits one).  When check_path rejects, recontruct_path returns the
diagnostic value. -/
theorem C5_path_amended (G : DiGraph N) (hwf : WF G) :
    (check_path G = true →
      ∃ l s, recontruct_path G = some l ∧ startNodes G = [s] ∧
        l.head? = some s ∧ l.Nodup ∧
        List.Chain' (fun a b => (a, b) ∈ G.edges) l) ∧
    (check_path G = false → recontruct_path G = none) := by
  constructor
  · intro hcheck
    obtain ⟨s, e0, hs, he0, hall⟩ := check_path_props G hcheck
    cases hw : pyWalk G (startNodes G) (G.nodes.length + 1) with
    | none =>
      exfalso
      rw [hs] at hw
      obtain ⟨l, hchain, hhead, hlen⟩ :=
        pyWalk_none_chain G (G.nodes.length + 1) s [] hw
      have hnd := chain_from_source_nodup G hwf hcheck l hchain s hs hhead
      have hsub : ∀ x ∈ l, x ∈ G.nodes := by
        have hsmem : s ∈ G.nodes :=
          ((mem_startNodes G).1 (by rw [hs]; exact List.mem_singleton_self s)).1
        exact chain_mem_nodes G hwf l hchain s hhead hsmem
      have hle := nodup_subset_length hnd hsub
      omega
    | some l =>
      obtain ⟨hchain, hhead⟩ :=
        pyWalk_some_chain G (G.nodes.length + 1) (startNodes G) l hw
      rw [hs] at hhead
      refine ⟨l, s, ?_, hs, hhead, ?_, ?_⟩
      · rw [recontruct_path, if_pos hcheck]
        exact hw
      · exact chain_from_source_nodup G hwf hcheck l hchain s hs hhead
      · exact hchain.imp (fun a b h => stepRel_edge G h)
  · intro hfalse
    rw [recontruct_path, if_neg]
    rw [hfalse]
    simp

theorem C5_path_amended_witness :
    ∃ l s, recontruct_path pathGraph = some l ∧ startNodes pathGraph = [s] ∧
      l.head? = some s ∧ l.Nodup ∧
      List.Chain' (fun a b => (a, b) ∈ pathGraph.edges) l :=
  (C5_path_amended pathGraph (by unfold WF; decide)).1 (by decide)

/- ### C9: termination of the greedy first-neighbor walk -/

theorem find_path_aux_spec (G : DiGraph N) (hwf : WF G) :
    ∀ (fuel : ℕ) (visited path : List N) (cat : N),
      visited.Nodup → (∀ x ∈ visited, x ∈ G.nodes) →
      G.nodes.length + 1 ≤ fuel + visited.length →
      path ≠ [] → List.Chain' (fun a b => (a, b) ∈ G.edges) path →
      path.getLast? = some cat →
      ∃ p, find_path_aux G fuel visited path cat = some p ∧
        p.head? = path.head? ∧
        List.Chain' (fun a b => (a, b) ∈ G.edges) p := by
  intro fuel
  induction fuel with
  | zero =>
    intro visited path cat hnd hsub hlen _ _ _
    exfalso
    have hle := nodup_subset_length hnd hsub
    omega
  | succ f ih =>
    intro visited path cat hnd hsub hlen hne hchain hlast
    rw [find_path_aux]
    cases hsucc : successors G cat with
    | nil => exact ⟨path, rfl, rfl, hchain⟩
    | cons a rest =>
      have hedge : (cat, a) ∈ G.edges :=
        mem_successors.1 (by rw [hsucc]; exact List.mem_cons_self a rest)
      by_cases hv : visited.contains a = true
      · refine ⟨path, ?_, rfl, hchain⟩
        show (if visited.contains a = true then some path
          else find_path_aux G f (a :: visited) (path ++ [a]) a) = some path
        rw [if_pos hv]
      · have hnotmem : a ∉ visited := by
          intro hmem
          exact hv (by simpa using hmem)
        have hanode : a ∈ G.nodes := (hwf.2.2 _ hedge).2
        obtain ⟨p, hp, hph, hpc⟩ := ih (a :: visited) (path ++ [a]) a
          (List.nodup_cons.2 ⟨hnotmem, hnd⟩)
          (by
            intro x hx
            rcases List.mem_cons.1 hx with h1 | h1
            · rw [h1]; exact hanode
            · exact hsub x h1)
          (by
            have : (a :: visited).length = visited.length + 1 := rfl
            omega)
          (by simp)
          (by
            rw [List.chain'_append]
            refine ⟨hchain, List.chain'_singleton a, ?_⟩
            intro x hx y hy
            rw [Option.mem_def, hlast] at hx
            injection hx with hx2
            rw [Option.mem_def] at hy
            injection hy with hy2
            rw [← hx2, ← hy2]
            exact hedge)
          (List.getLast?_concat path)
        refine ⟨p, ?_, ?_, hpc⟩
        · show (if visited.contains a = true then some path
            else find_path_aux G f (a :: visited) (path ++ [a]) a) = some p
          rw [if_neg hv]
          exact hp
        · rw [hph]
          exact head?_append_left path [a] hne

/-- C9: for every well-formed finite directed graph and every start node in
the graph, find_path_always_first_neighbor terminates (the fuel bound
|nodes| + 1 is never exhausted) and returns a path that begins at the start
node and follows edges of the graph; in particular it terminates on graphs
with directed cycles reachable from the start. -/
theorem C9_greedy_terminates (G : DiGraph N) (s : N) (hwf : WF G)
    (hs : s ∈ G.nodes) :
    ∃ p, find_path_always_first_neighbor G s = some p ∧ p.head? = some s ∧
      List.Chain' (fun a b => (a, b) ∈ G.edges) p := by
  obtain ⟨p, hp, hph, hpc⟩ := find_path_aux_spec G hwf (G.nodes.length + 1)
    [s] [s] s (List.nodup_singleton s)
    (by
      intro x hx
      rw [List.mem_singleton] at hx
      rw [hx]
      exact hs)
    (by omega)
    (by simp)
    (List.chain'_singleton s)
    rfl
  exact ⟨p, hp, by rw [hph]; rfl, hpc⟩

theorem C9_greedy_terminates_witness :
    ∃ p, find_path_always_first_neighbor cycleGraph 0 = some p ∧
      p.head? = some 0 ∧
      List.Chain' (fun a b => (a, b) ∈ cycleGraph.edges) p :=
  C9_greedy_terminates cycleGraph 0 (by unfold WF; decide) (by decide)

/- ### C6: the reward term of the QUBO -/

theorem Qset_ne_diag {Q : ℕ → ℕ → ℤ} {d k : ℕ} {v : ℤ} (h : d ≠ k) :
    Qset Q d d v k k = Q k k := by
  rw [Qset, if_neg]
  rintro ⟨h1, _⟩
  exact h h1.symm

theorem Qset_diag_self {Q : ℕ → ℕ → ℤ} {k : ℕ} {v : ℤ} :
    Qset Q k k v k k = v := by
  rw [Qset, if_pos ⟨rfl, rfl⟩]

theorem Qset_offdiag {Q : ℕ → ℕ → ℤ} {d : ℕ} {v : ℤ} {a b : ℕ} (h : a ≠ b) :
    Qset Q d d v a b = Q a b := by
  rw [Qset, if_neg]
  rintro ⟨h1, h2⟩
  exact h (h1.trans h2.symm)

theorem foldl_preserve {α : Type} (l : List α)
    (f : (ℕ → ℕ → ℤ) → α → (ℕ → ℕ → ℤ)) (Q : ℕ → ℕ → ℤ) (a b : ℕ)
    (hstep : ∀ (Q : ℕ → ℕ → ℤ) (x : α), x ∈ l → f Q x a b = Q a b) :
    (l.foldl f Q) a b = Q a b := by
  induction l generalizing Q with
  | nil => rfl
  | cons x t ih =>
    rw [List.foldl_cons,
      ih (f Q x) (fun Q y hy => hstep Q y (List.mem_cons_of_mem x hy))]
    exact hstep Q x (List.mem_cons_self x t)

theorem foldl_pres_or {α : Type} (l : List α)
    (f : (ℕ → ℕ → ℤ) → α → (ℕ → ℕ → ℤ)) (Q : ℕ → ℕ → ℤ) (a b : ℕ) (w : ℤ)
    (hstep : ∀ (Q : ℕ → ℕ → ℤ) (x : α), x ∈ l →
      f Q x a b = Q a b ∨ f Q x a b = w) :
    (l.foldl f Q) a b = Q a b ∨ (l.foldl f Q) a b = w := by
  induction l generalizing Q with
  | nil => exact Or.inl rfl
  | cons x t ih =>
    rw [List.foldl_cons]
    have hrec := ih (f Q x) (fun Q y hy => hstep Q y (List.mem_cons_of_mem x hy))
    rcases hstep Q x (List.mem_cons_self x t) with h | h
    · rw [h] at hrec
      exact hrec
    · rcases hrec with h2 | h2
      · rw [h2, h]
        exact Or.inr rfl
      · exact Or.inr h2

theorem foldl_keep {α : Type} (l : List α)
    (f : (ℕ → ℕ → ℤ) → α → (ℕ → ℕ → ℤ)) (Q : ℕ → ℕ → ℤ) (a b : ℕ) (w : ℤ)
    (hstep : ∀ (Q : ℕ → ℕ → ℤ) (x : α), x ∈ l →
      f Q x a b = Q a b ∨ f Q x a b = w)
    (hQ : Q a b = w) : (l.foldl f Q) a b = w := by
  induction l generalizing Q with
  | nil => exact hQ
  | cons x t ih =>
    rw [List.foldl_cons]
    apply ih (f Q x) (fun Q y hy => hstep Q y (List.mem_cons_of_mem x hy))
    rcases hstep Q x (List.mem_cons_self x t) with h | h
    · rw [h]
      exact hQ
    · exact h

theorem foldl_establish {α : Type} (l : List α)
    (f : (ℕ → ℕ → ℤ) → α → (ℕ → ℕ → ℤ)) (Q : ℕ → ℕ → ℤ) (a b : ℕ) (w : ℤ)
    (hstep : ∀ (Q : ℕ → ℕ → ℤ) (x : α), x ∈ l →
      f Q x a b = Q a b ∨ f Q x a b = w)
    (hhit : ∃ x ∈ l, ∀ Q : ℕ → ℕ → ℤ, f Q x a b = w) :
    (l.foldl f Q) a b = w := by
  obtain ⟨x, hx, hxw⟩ := hhit
  obtain ⟨s, t, rfl⟩ := List.append_of_mem hx
  rw [List.foldl_append, List.foldl_cons]
  apply foldl_keep t f _ a b w
  · intro Q y hy
    exact hstep Q y (List.mem_append.2 (Or.inr (List.mem_cons_of_mem x hy)))
  · exact hxw _

theorem get?_listIdx {β : Type} [DecidableEq β] {l : List β} {x : β}
    (h : x ∈ l) : l.get? (listIdx l x) = some x := by
  induction l with
  | nil => exact absurd h (List.not_mem_nil x)
  | cons y t ih =>
    by_cases hyx : y = x
    · rw [listIdx, if_pos hyx, List.get?, hyx]
    · rw [listIdx, if_neg hyx, List.get?]
      have hx : x ∈ t := by
        rcases List.mem_cons.1 h with h1 | h1
        · exact absurd h1.symm hyx
        · exact h1
      exact ih hx

theorem edges_register_inj (P : GraphPathProblem N) {d1 d2 : N × N}
    (h1 : d1 ∈ P.graph.edges) (h2 : d2 ∈ P.graph.edges)
    (h : edges_register P d1 = edges_register P d2) : d1 = d2 := by
  rw [edges_register, edges_register] at h
  have g1 := get?_listIdx h1
  have g2 := get?_listIdx h2
  rw [h, g2] at g1
  injection g1 with hval
  exact hval.symm

theorem get_qubo_main_offdiag (P : GraphPathProblem N) (a b : ℕ)
    (hab : a ≠ b) : get_qubo_main P a b = 0 := by
  rw [get_qubo_main]
  rw [foldl_preserve _ _ _ a b]
  · rfl
  · intro Q i _
    exact foldl_preserve _ _ _ a b (fun Q j _ => Qset_offdiag hab)

theorem get_qubo_main_diag (P : GraphPathProblem N) (hwf : WF P.graph)
    (d : N × N) (hd : d ∈ P.graph.edges) :
    get_qubo_main P (edges_register P d) (edges_register P d) =
      edgeWeight P d := by
  have hstep1 : ∀ (i : N), ∀ (Q : ℕ → ℕ → ℤ) (j : N), j ∈ successors P.graph i →
      Qset Q (edges_register P (i, j)) (edges_register P (i, j))
          (edgeWeight P (i, j)) (edges_register P d) (edges_register P d) =
        Q (edges_register P d) (edges_register P d) ∨
      Qset Q (edges_register P (i, j)) (edges_register P (i, j))
          (edgeWeight P (i, j)) (edges_register P d) (edges_register P d) =
        edgeWeight P d := by
    intro i Q j hj
    have hedge : (i, j) ∈ P.graph.edges := mem_successors.1 hj
    by_cases hk : edges_register P (i, j) = edges_register P d
    · have heq : (i, j) = d := edges_register_inj P hedge hd hk
      right
      rw [heq, Qset_diag_self]
    · left
      exact Qset_ne_diag hk
  rw [get_qubo_main]
  apply foldl_establish
  · intro Q i _
    exact foldl_pres_or _ _ _ _ _ _ (fun Q j hj => hstep1 i Q j hj)
  · refine ⟨d.1, (hwf.2.2 d hd).1, ?_⟩
    intro Q
    apply foldl_establish
    · intro Q j hj
      exact hstep1 d.1 Q j hj
    · refine ⟨d.2, mem_successors.2 ?_, ?_⟩
      · exact hd
      · intro Q
        exact Qset_diag_self

theorem symetrize_diag_eq (A : ℕ → ℕ → ℤ) (a : ℕ) :
    symetrize A a a = A a a := by
  rw [symetrize, if_pos rfl]
  ring

theorem symetrize_offdiag_eq (A : ℕ → ℕ → ℤ) (a b : ℕ) (hab : a ≠ b) :
    symetrize A a b = A a b + A b a := by
  rw [symetrize, if_neg hab]
  ring

/-- C6 counterexample: for a single default-weight edge with delta = 1 and
alpha = beta = gamma = 0, get_qubo returns Q[0,0] = 1 = delta * weight,
whereas the claim demands Q[0,0] = delta * (weight - 1) = 0: get_qubo_main
assigns the intrinsic weight itself to the diagonal and no -delta term is
ever added. -/
theorem C6_counterexample :
    get_qubo edgeProb 1 0 0 0 none none 0 0 = 1 ∧
      1 * (edgeWeight edgeProb (0, 1) - 1) = 0 := by decide

/-- C6 amended: the reward term contributes delta times the edge's intrinsic
weight (default 1) to the diagonal entry Q[i,i], with no additional -delta
term: for every well-formed graph and the registry of
update_edges_register, with alpha = beta = gamma = 0 and no start or finish
node the returned matrix is diagonal and Q[i,i] = delta * weight(i) for
every edge i. -/
theorem C6_reward_amended (P : GraphPathProblem N) (hwf : WF P.graph)
    (delta : ℤ) :
    (∀ a b : ℕ, a ≠ b → get_qubo P delta 0 0 0 none none a b = 0) ∧
    ∀ d ∈ P.graph.edges,
      get_qubo P delta 0 0 0 none none (edges_register P d)
          (edges_register P d) =
        delta * edgeWeight P d := by
  constructor
  · intro a b hab
    show symetrize (Qsum (Qsum (Qsum (Qsmul delta (get_qubo_main P))
      (Qsmul 0 (get_qubo_out P))) (Qsmul 0 (get_qubo_in P)))
      (Qsmul 0 (get_qubo_flow P))) a b = 0
    rw [symetrize_offdiag_eq _ _ _ hab]
    simp only [Qsum, Qsmul]
    rw [get_qubo_main_offdiag P a b hab, get_qubo_main_offdiag P b a (Ne.symm hab)]
    ring
  · intro d hd
    show symetrize (Qsum (Qsum (Qsum (Qsmul delta (get_qubo_main P))
      (Qsmul 0 (get_qubo_out P))) (Qsmul 0 (get_qubo_in P)))
      (Qsmul 0 (get_qubo_flow P))) (edges_register P d) (edges_register P d) =
      delta * edgeWeight P d
    rw [symetrize_diag_eq]
    simp only [Qsum, Qsmul]
    rw [get_qubo_main_diag P hwf d hd]
    ring

theorem C6_reward_amended_witness :
    get_qubo edgeProb 3 0 0 0 none none 0 1 = 0 ∧
      get_qubo edgeProb 3 0 0 0 none none (edges_register edgeProb (0, 1))
          (edges_register edgeProb (0, 1)) =
        3 * edgeWeight edgeProb (0, 1) :=
  ⟨(C6_reward_amended edgeProb (by unfold WF; decide) 3).1 0 1 (by decide),
   (C6_reward_amended edgeProb (by unfold WF; decide) 3).2 (0, 1) (by decide)⟩

end ScaffoQA
